import Mathlib

/-!
Shallow embedding of the dictionary-matching core of the "Target UA" word
game (`target_ua.py`): the dictionary loader `get_words` and the checker
`check_user_words`, together with the Python `dict` semantics they rely on.

Strings are modelled as `List Char`; reading the dictionary file is modelled
by passing the file's lines as a `List (List Char)`.  The one fallible
operation — the subscript `word[0]` inside `check_user_words`, which raises
`IndexError` on an empty word — is modelled by returning `Option`.
-/

set_option autoImplicit false

abbrev Word := List Char

/-- The whitespace characters removed by Python's `str.rstrip()`
(restricted to the ASCII range, which covers dictionary-file lines). -/
def pyWhitespace : List Char := [' ', '\t', '\n', '\x0b', '\x0c', '\r']

/-- Python's `str.rstrip()`: drop trailing whitespace characters. -/
def rstrip (l : List Char) : List Char :=
  (l.reverse.dropWhile (fun c => decide (c ∈ pyWhitespace))).reverse

/-- Python's `str.lower()` restricted to ASCII letters and the Cyrillic
letters used by the Ukrainian alphabet. -/
def pyLower (c : Char) : Char :=
  if 'A' ≤ c ∧ c ≤ 'Z' then Char.ofNat (c.toNat + 32)
  else if 'А' ≤ c ∧ c ≤ 'Я' then Char.ofNat (c.toNat + 32)
  else if c = 'Ґ' then 'ґ'
  else if c = 'Є' then 'є'
  else if c = 'І' then 'і'
  else if c = 'Ї' then 'ї'
  else c

/-- Python's `str.split(' ')`: split on every single space, keeping empty
pieces; the empty string splits to `[""]`. -/
def splitSpace : List Char → List (List Char)
  | [] => [[]]
  | c :: rest =>
    if c = ' ' then [] :: splitSpace rest
    else
      match splitSpace rest with
      | [] => [[c]]
      | t :: ts => (c :: t) :: ts

/-- Python's `" ".join(pieces)`. -/
def joinSpace : List (List Char) → List Char
  | [] => []
  | [t] => t
  | t :: ts => t ++ ' ' :: joinSpace ts

/-- Python's substring test `needle in hay` on strings. -/
def substrB (needle hay : List Char) : Bool :=
  hay.tails.any (fun t => needle.isPrefixOf t)

/-- The `language_parts` marker table of `get_words`, in Python `dict`
key-iteration order (insertion order). -/
def language_parts : List (Word × Word) :=
  [("/n".toList, "noun".toList),
   ("/v".toList, "verb".toList),
   ("noun".toList, "noun".toList),
   ("adj".toList, "adjective".toList),
   ("adv".toList, "adverb".toList),
   ("n".toList, "noun".toList),
   ("v".toList, "verb".toList)]

/-- The `bad_types` disqualifying markers of `get_words`. -/
def bad_types : List Word :=
  ["intj".toList, "noninfl".toList]

/-- The classification loop of `get_words`: the first marker of
`language_parts` occurring as a substring of the annotation wins; with no
match the annotation string is kept verbatim. -/
def classify (wp : Word) : Word :=
  match language_parts.find? (fun p => substrB p.1 wp) with
  | some p => p.2
  | none => wp

/-- The joined non-empty annotation tokens of a source line, after the
line is right-stripped, lower-cased and split on single spaces. -/
def annotationOf (line : List Char) : Word :=
  joinSpace (((splitSpace ((rstrip line).map pyLower)).tail).filter
    (fun t => decide (t ≠ [])))

/-- The per-line body of `get_words`: `some (word, classification)` when the
line yields an entry, `none` when it is skipped. -/
def processLine (letters : List Char) (line : List Char) :
    Option (Word × Word) :=
  match splitSpace ((rstrip line).map pyLower) with
  | [] => none
  | word :: props =>
    if word.length ≤ 5 ∧ 0 < word.length ∧ word.headI ∈ letters then
      let wp := joinSpace (props.filter (fun t => decide (t ≠ [])))
      if bad_types.any (fun b => substrB b wp) then none
      else some (word, classify wp)
    else none

/-- `get_words`, with the opened file replaced by its list of lines. -/
def get_words (lines : List (List Char)) (letters : List Char) :
    List (Word × Word) :=
  lines.filterMap (processLine letters)

/-- Python `dict` assignment `d[k] = v` on an association list: an existing
key keeps its position and receives the new value, a new key is appended. -/
def dictInsert : List (Word × Word) → Word × Word → List (Word × Word)
  | [], kv => [kv]
  | p :: d, kv =>
    if p.1 = kv.1 then (p.1, kv.2) :: d else p :: dictInsert d kv

/-- `dict(pairs)`: build a Python dict from a sequence of pairs. -/
def dictOf (ps : List (Word × Word)) : List (Word × Word) :=
  ps.foldl dictInsert []

/-- `d.get(k)` on the association-list model of a Python dict. -/
def dictGet? (d : List (Word × Word)) (k : Word) : Option Word :=
  (d.find? (fun p => decide (p.1 = k))).map Prod.snd

/-- The keys of the association-list model, in iteration order. -/
def keysOf (d : List (Word × Word)) : List Word :=
  d.map Prod.fst

/-- The `more_words` list comprehension of `check_user_words`, over the
dict's keys in iteration order; `none` models the `IndexError` raised by
`word[0]` on an empty key. -/
def moreWords (correct : List Word) (letters : List Char) (lp : Word)
    (d : List (Word × Word)) : List Word → Option (List Word)
  | [] => some []
  | [] :: ws =>
    if ([] : Word) ∈ correct then moreWords correct letters lp d ws else none
  | (ch :: t) :: ws =>
    if (ch :: t) ∈ correct then moreWords correct letters lp d ws
    else if ch ∈ letters ∧ dictGet? d (ch :: t) = some lp then
      (moreWords correct letters lp d ws).map (fun rest => (ch :: t) :: rest)
    else moreWords correct letters lp d ws

/-- `check_user_words(user_words, language_part, letters, dict_of_words)`:
`some (correct_words, more_words)` on success, `none` when the Python code
would raise `IndexError`. -/
def check_user_words (user_words : List Word) (language_part : Word)
    (letters : List Char) (dict_of_words : List (Word × Word)) :
    Option (List Word × List Word) :=
  let d := dictOf dict_of_words
  let correct_words :=
    user_words.filter (fun w => decide (dictGet? d w = some language_part))
  match moreWords correct_words letters language_part d (keysOf d) with
  | some more_words => some (correct_words, more_words)
  | none => none

/-- Modelled from the spec: the classification of a dictionary word is that
of its last occurrence in dictionary order (spec §4.2 step 1). -/
def lookupLast (ps : List (Word × Word)) (w : Word) : Option Word :=
  (ps.reverse.find? (fun p => decide (p.1 = w))).map Prod.snd

/-- Modelled from the spec: de-duplication of a key sequence keeping each
key at its first occurrence (Python dict key-iteration order). -/
def dedupFirst : List Word → List Word
  | [] => []
  | w :: ws => w :: dedupFirst (ws.filter (fun x => decide (x ≠ w)))
termination_by l => l.length
decreasing_by
  simp only [List.length_cons]
  exact Nat.lt_succ_of_le (List.length_filter_le _ _)

/-! ### Lemmas about the Python-dict model -/

theorem dictGet?_cons (q : Word × Word) (d : List (Word × Word)) (w : Word) :
    dictGet? (q :: d) w = if q.1 = w then some q.2 else dictGet? d w := by
  by_cases h : q.1 = w <;> simp [dictGet?, List.find?, h]

theorem dictGet?_dictInsert (d : List (Word × Word)) (kv : Word × Word)
    (w : Word) :
    dictGet? (dictInsert d kv) w =
      if kv.1 = w then some kv.2 else dictGet? d w := by
  induction d with
  | nil =>
    by_cases h : kv.1 = w <;>
      simp [dictInsert, dictGet?_cons, dictGet?, List.find?, h]
  | cons p d ih =>
    by_cases hp : p.1 = kv.1
    · simp only [dictInsert, if_pos hp, dictGet?_cons]
      by_cases h : kv.1 = w
      · rw [if_pos (hp.trans h), if_pos h]
      · rw [if_neg (fun hc => h (hp.symm.trans hc)), if_neg h,
          if_neg (fun hc => h (hp.symm.trans hc))]
    · simp only [dictInsert, if_neg hp, dictGet?_cons, ih]
      by_cases hw : p.1 = w
      · rw [if_pos hw, if_neg (fun hc => hp (hw.trans hc.symm)), if_pos hw]
      · rw [if_neg hw]
        by_cases h : kv.1 = w
        · rw [if_pos h, if_pos h]
        · rw [if_neg h, if_neg h, if_neg hw]

theorem keysOf_dictInsert (d : List (Word × Word)) (kv : Word × Word) :
    keysOf (dictInsert d kv) =
      if kv.1 ∈ keysOf d then keysOf d else keysOf d ++ [kv.1] := by
  induction d with
  | nil => simp [dictInsert, keysOf]
  | cons p d ih =>
    by_cases hp : p.1 = kv.1
    · simp only [dictInsert, if_pos hp, keysOf, List.map_cons]
      rw [if_pos (hp ▸ List.mem_cons_self p.1 (List.map Prod.fst d))]
    · have hne : kv.1 ≠ p.1 := fun hc => hp hc.symm
      simp only [dictInsert, if_neg hp, keysOf, List.map_cons] at ih ⊢
      rw [ih]
      by_cases hmem : kv.1 ∈ List.map Prod.fst d
      · rw [if_pos hmem, if_pos (List.mem_cons_of_mem _ hmem)]
      · rw [if_neg hmem, if_neg (by simp [List.mem_cons, hne, hmem]),
          List.cons_append]

theorem lookupLast_cons (kv : Word × Word) (ps : List (Word × Word))
    (w : Word) :
    lookupLast (kv :: ps) w =
      (lookupLast ps w).or (if kv.1 = w then some kv.2 else none) := by
  simp only [lookupLast, List.reverse_cons, List.find?_append]
  cases hf : List.find? (fun p => decide (p.1 = w)) ps.reverse with
  | none =>
    by_cases h : kv.1 = w <;> simp [Option.or, List.find?, h]
  | some q => simp [Option.or]

theorem dictGet?_foldl_dictInsert (ps : List (Word × Word)) :
    ∀ (d : List (Word × Word)) (w : Word),
      dictGet? (ps.foldl dictInsert d) w =
        (lookupLast ps w).or (dictGet? d w) := by
  induction ps with
  | nil => intro d w; simp [lookupLast, Option.or]
  | cons kv ps ih =>
    intro d w
    rw [List.foldl_cons, ih, dictGet?_dictInsert, lookupLast_cons]
    cases hl : lookupLast ps w <;> by_cases h : kv.1 = w <;>
      simp [Option.or, h]

theorem dictGet?_dictOf (ps : List (Word × Word)) (w : Word) :
    dictGet? (dictOf ps) w = lookupLast ps w := by
  rw [dictOf, dictGet?_foldl_dictInsert]
  simp [dictGet?, List.find?, Option.or_none]

theorem keysOf_foldl_dictInsert (ps : List (Word × Word)) :
    ∀ d : List (Word × Word),
      keysOf (ps.foldl dictInsert d) =
        keysOf d ++
          dedupFirst ((ps.map Prod.fst).filter
            (fun k => decide (k ∉ keysOf d))) := by
  induction ps with
  | nil => intro d; simp [dedupFirst]
  | cons kv ps ih =>
    intro d
    rw [List.foldl_cons, ih (dictInsert d kv), keysOf_dictInsert]
    by_cases hmem : kv.1 ∈ keysOf d
    · rw [if_pos hmem]
      simp [List.filter_cons, hmem]
    · rw [if_neg hmem]
      have hfilter :
          (List.map Prod.fst ps).filter
              (fun k => decide (k ∉ keysOf d ++ [kv.1]))
            = ((List.map Prod.fst ps).filter
                (fun k => decide (k ∉ keysOf d))).filter
                  (fun x => decide (x ≠ kv.1)) := by
        rw [List.filter_filter]
        apply List.filter_congr
        intro x _
        simp [List.mem_append, not_or, Bool.and_comm]
      rw [hfilter, List.append_assoc, List.singleton_append]
      congr 1
      rw [List.map_cons, List.filter_cons]
      simp only [hmem, not_false_iff, decide_true_eq_true, if_true]
      rw [dedupFirst]

theorem keysOf_dictOf (ps : List (Word × Word)) :
    keysOf (dictOf ps) = dedupFirst (ps.map Prod.fst) := by
  rw [dictOf, keysOf_foldl_dictInsert]
  have : (ps.map Prod.fst).filter (fun k => decide (k ∉ keysOf ([] : List (Word × Word)))) = ps.map Prod.fst := by
    apply List.filter_eq_self.mpr
    intro a _
    simp [keysOf]
  rw [this]
  simp [keysOf]

theorem mem_of_mem_dedupFirst :
    ∀ (l : List Word) (x : Word), x ∈ dedupFirst l → x ∈ l := by
  intro l
  induction l using dedupFirst.induct with
  | case1 => intro x hx; simp [dedupFirst] at hx
  | case2 w ws ih =>
    intro x hx
    rw [dedupFirst] at hx
    rcases List.mem_cons.mp hx with h | h
    · exact h ▸ List.mem_cons_self _ _
    · exact List.mem_cons_of_mem _ (List.mem_of_mem_filter (ih x h))

theorem mem_keysOf_of_dictGet?_eq_some {d : List (Word × Word)} {w v : Word}
    (h : dictGet? d w = some v) : w ∈ keysOf d := by
  rw [dictGet?, Option.map_eq_some'] at h
  obtain ⟨p, hp, hv⟩ := h
  have hmem := List.mem_of_find?_eq_some hp
  have hkey : p.1 = w := by simpa using List.find?_some hp
  exact hkey ▸ List.mem_map_of_mem Prod.fst hmem


/-! ### Lemmas about the checker -/

theorem moreWords_mem {c : List Word} {ls : List Char} {lp : Word}
    {d : List (Word × Word)} :
    ∀ {ws m : List Word}, moreWords c ls lp d ws = some m →
      ∀ w ∈ m, w ∈ ws ∧ w ∉ c ∧
        (∃ ch t, w = ch :: t ∧ ch ∈ ls) ∧ dictGet? d w = some lp := by
  intro ws
  induction ws with
  | nil =>
    intro m h w hw
    simp only [moreWords, Option.some.injEq] at h
    subst h
    simp at hw
  | cons w' ws ih =>
    intro m h w hw
    cases w' with
    | nil =>
      simp only [moreWords] at h
      by_cases hc : ([] : Word) ∈ c
      · rw [if_pos hc] at h
        obtain ⟨hmem, rest⟩ := ih h w hw
        exact ⟨List.mem_cons_of_mem _ hmem, rest⟩
      · rw [if_neg hc] at h
        exact absurd h (by simp)
    | cons ch t =>
      simp only [moreWords] at h
      by_cases hc : (ch :: t) ∈ c
      · rw [if_pos hc] at h
        obtain ⟨hmem, rest⟩ := ih h w hw
        exact ⟨List.mem_cons_of_mem _ hmem, rest⟩
      · rw [if_neg hc] at h
        by_cases hcond : ch ∈ ls ∧ dictGet? d (ch :: t) = some lp
        · rw [if_pos hcond, Option.map_eq_some'] at h
          obtain ⟨m', hm', rfl⟩ := h
          rcases List.mem_cons.mp hw with rfl | hw'
          · exact ⟨List.mem_cons_self _ _, hc, ⟨ch, t, rfl, hcond.1⟩, hcond.2⟩
          · obtain ⟨hmem, rest⟩ := ih hm' w hw'
            exact ⟨List.mem_cons_of_mem _ hmem, rest⟩
        · rw [if_neg hcond] at h
          obtain ⟨hmem, rest⟩ := ih h w hw
          exact ⟨List.mem_cons_of_mem _ hmem, rest⟩

theorem moreWords_complete {c : List Word} {ls : List Char} {lp : Word}
    {d : List (Word × Word)} :
    ∀ {ws m : List Word}, moreWords c ls lp d ws = some m →
      ∀ w ∈ ws, w ∉ c → (∃ ch t, w = ch :: t ∧ ch ∈ ls) →
        dictGet? d w = some lp → w ∈ m := by
  intro ws
  induction ws with
  | nil => intro m h w hw; simp at hw
  | cons w' ws ih =>
    intro m h w hw hnc hch hlp
    rcases List.mem_cons.mp hw with rfl | hw'
    · obtain ⟨ch, t, rfl, hchls⟩ := hch
      simp only [moreWords] at h
      rw [if_neg hnc, if_pos ⟨hchls, hlp⟩, Option.map_eq_some'] at h
      obtain ⟨m', _, rfl⟩ := h
      exact List.mem_cons_self _ _
    · cases w' with
      | nil =>
        simp only [moreWords] at h
        by_cases hc : ([] : Word) ∈ c
        · rw [if_pos hc] at h
          exact ih h w hw' hnc hch hlp
        · rw [if_neg hc] at h
          exact absurd h (by simp)
      | cons ch t =>
        simp only [moreWords] at h
        by_cases hc : (ch :: t) ∈ c
        · rw [if_pos hc] at h
          exact ih h w hw' hnc hch hlp
        · rw [if_neg hc] at h
          by_cases hcond : ch ∈ ls ∧ dictGet? d (ch :: t) = some lp
          · rw [if_pos hcond, Option.map_eq_some'] at h
            obtain ⟨m', hm', rfl⟩ := h
            exact List.mem_cons_of_mem _ (ih hm' w hw' hnc hch hlp)
          · rw [if_neg hcond] at h
            exact ih h w hw' hnc hch hlp

theorem moreWords_sublist {c : List Word} {ls : List Char} {lp : Word}
    {d : List (Word × Word)} :
    ∀ {ws m : List Word}, moreWords c ls lp d ws = some m → m.Sublist ws := by
  intro ws
  induction ws with
  | nil =>
    intro m h
    simp only [moreWords, Option.some.injEq] at h
    subst h
    exact List.Sublist.refl _
  | cons w' ws ih =>
    intro m h
    cases w' with
    | nil =>
      simp only [moreWords] at h
      by_cases hc : ([] : Word) ∈ c
      · rw [if_pos hc] at h
        exact (ih h).cons _
      · rw [if_neg hc] at h
        exact absurd h (by simp)
    | cons ch t =>
      simp only [moreWords] at h
      by_cases hc : (ch :: t) ∈ c
      · rw [if_pos hc] at h
        exact (ih h).cons _
      · rw [if_neg hc] at h
        by_cases hcond : ch ∈ ls ∧ dictGet? d (ch :: t) = some lp
        · rw [if_pos hcond, Option.map_eq_some'] at h
          obtain ⟨m', hm', rfl⟩ := h
          exact (ih hm').cons₂ _
        · rw [if_neg hcond] at h
          exact (ih h).cons _

theorem moreWords_isSome {c : List Word} {ls : List Char} {lp : Word}
    {d : List (Word × Word)} :
    ∀ {ws : List Word}, (∀ w ∈ ws, w ≠ []) →
      ∃ m, moreWords c ls lp d ws = some m := by
  intro ws
  induction ws with
  | nil => intro _; exact ⟨[], rfl⟩
  | cons w' ws ih =>
    intro hne
    obtain ⟨m, hm⟩ := ih (fun w hw => hne w (List.mem_cons_of_mem _ hw))
    cases w' with
    | nil => exact absurd rfl (hne [] (List.mem_cons_self _ _))
    | cons ch t =>
      by_cases hc : (ch :: t) ∈ c
      · exact ⟨m, by simp only [moreWords]; rw [if_pos hc]; exact hm⟩
      · by_cases hcond : ch ∈ ls ∧ dictGet? d (ch :: t) = some lp
        · refine ⟨(ch :: t) :: m, ?_⟩
          simp only [moreWords]
          rw [if_neg hc, if_pos hcond, hm]
          rfl
        · refine ⟨m, ?_⟩
          simp only [moreWords]
          rw [if_neg hc, if_neg hcond]
          exact hm

theorem check_user_words_some {uw : List Word} {lp : Word} {ls : List Char}
    {dict : List (Word × Word)} {c m : List Word}
    (h : check_user_words uw lp ls dict = some (c, m)) :
    c = uw.filter (fun w => decide (dictGet? (dictOf dict) w = some lp)) ∧
      moreWords c ls lp (dictOf dict) (keysOf (dictOf dict)) = some m := by
  simp only [check_user_words] at h
  cases hmw : moreWords
      (uw.filter (fun w => decide (dictGet? (dictOf dict) w = some lp)))
      ls lp (dictOf dict) (keysOf (dictOf dict)) with
  | none =>
    rw [hmw] at h
    exact absurd h (by simp)
  | some m' =>
    rw [hmw] at h
    simp only [Option.some.injEq, Prod.mk.injEq] at h
    obtain ⟨hc, hm⟩ := h
    subst hc
    subst hm
    exact ⟨rfl, hmw⟩

/-! ### Lemmas about the loader -/

theorem splitSpace_ne_nil : ∀ l : List Char, splitSpace l ≠ [] := by
  intro l
  induction l with
  | nil => simp [splitSpace]
  | cons c rest ih =>
    by_cases h : c = ' '
    · simp [splitSpace, h]
    · simp only [splitSpace, if_neg h]
      cases hs : splitSpace rest with
      | nil => simp
      | cons t ts => simp

theorem annotationOf_eq {line w : List Char} {props : List (List Char)}
    (hs : splitSpace ((rstrip line).map pyLower) = w :: props) :
    annotationOf line =
      joinSpace (props.filter (fun t => decide (t ≠ []))) := by
  rw [annotationOf, hs, List.tail_cons]

theorem processLine_some_iff {ls line : List Char} {w cl : Word} :
    processLine ls line = some (w, cl) ↔
      ∃ props, splitSpace ((rstrip line).map pyLower) = w :: props ∧
        w.length ≤ 5 ∧ 0 < w.length ∧ w.headI ∈ ls ∧
        bad_types.any (fun b => substrB b
          (joinSpace (props.filter (fun t => decide (t ≠ []))))) = false ∧
        cl = classify (joinSpace (props.filter (fun t => decide (t ≠ [])))) := by
  constructor
  · intro h
    cases hs : splitSpace ((rstrip line).map pyLower) with
    | nil =>
      simp only [processLine, hs] at h
      exact absurd h (by simp)
    | cons word props =>
      simp only [processLine, hs] at h
      by_cases hfilt : word.length ≤ 5 ∧ 0 < word.length ∧ word.headI ∈ ls
      · rw [if_pos hfilt] at h
        by_cases hbad : bad_types.any (fun b => substrB b
            (joinSpace (props.filter (fun t => decide (t ≠ []))))) = true
        · rw [if_pos hbad] at h
          exact absurd h (by simp)
        · rw [if_neg hbad] at h
          simp only [Option.some.injEq, Prod.mk.injEq] at h
          obtain ⟨hw, hcl⟩ := h
          subst hw
          exact ⟨props, rfl, hfilt.1, hfilt.2.1, hfilt.2.2,
            Bool.not_eq_true _ ▸ hbad, hcl.symm⟩
      · rw [if_neg hfilt] at h
        exact absurd h (by simp)
  · rintro ⟨props, hs, h5, h0, hhd, hbad, hcl⟩
    simp only [processLine, hs]
    rw [if_pos ⟨h5, h0, hhd⟩, hbad]
    simp [hcl]

/-! ### Claims -/

/-- C1: for every call of `check_user_words` that returns, the `correct`
list is a subsequence of `user_words`, every word in `correct` is mapped by
the dictionary lookup to exactly the target part, no word of `missed` is
present in `correct`, and every word in `missed` has its first character in
`letters` and is mapped by the lookup to the target part. -/
theorem C1_check_partition {uw : List Word} {lp : Word} {ls : List Char}
    {dict : List (Word × Word)} {c m : List Word}
    (h : check_user_words uw lp ls dict = some (c, m)) :
    c.Sublist uw ∧
      (∀ w ∈ c, dictGet? (dictOf dict) w = some lp) ∧
      (∀ w ∈ m, w ∉ c) ∧
      (∀ w ∈ m, (∃ ch t, w = ch :: t ∧ ch ∈ ls) ∧
        dictGet? (dictOf dict) w = some lp) := by
  obtain ⟨hc, hm⟩ := check_user_words_some h
  subst hc
  refine ⟨List.filter_sublist _, ?_, ?_, ?_⟩
  · intro w hw
    exact of_decide_eq_true (List.mem_filter.mp hw).2
  · intro w hw
    exact (moreWords_mem hm w hw).2.1
  · intro w hw
    obtain ⟨_, _, hch, hlp⟩ := moreWords_mem hm w hw
    exact ⟨hch, hlp⟩

/-- Witness for C1 at a concrete call. -/
theorem C1_check_partition_witness :
    check_user_words ["яв".toList] "noun".toList ['я']
        [("яв".toList, "noun".toList), ("ябеда".toList, "noun".toList)]
      = some (["яв".toList], ["ябеда".toList]) ∧
    (["яв".toList] : List Word).Sublist ["яв".toList] ∧
      (∀ w ∈ (["яв".toList] : List Word),
        dictGet? (dictOf [("яв".toList, "noun".toList),
          ("ябеда".toList, "noun".toList)]) w = some ("noun".toList)) ∧
      (∀ w ∈ (["ябеда".toList] : List Word), w ∉ (["яв".toList] : List Word)) ∧
      (∀ w ∈ (["ябеда".toList] : List Word),
        (∃ ch t, w = ch :: t ∧ ch ∈ ['я']) ∧
          dictGet? (dictOf [("яв".toList, "noun".toList),
            ("ябеда".toList, "noun".toList)]) w = some ("noun".toList)) :=
  ⟨by decide, C1_check_partition (by decide)⟩

/-- C3: every entry produced by the loader has a non-empty word of length at
most 5 whose first character belongs to the letter set. -/
theorem C3_loader_length_letter {lines : List (List Char)} {ls : List Char}
    {w cl : Word} (h : (w, cl) ∈ get_words lines ls) :
    w.length ≤ 5 ∧ w ≠ [] ∧ w.headI ∈ ls := by
  rw [get_words] at h
  obtain ⟨line, _, hp⟩ := List.mem_filterMap.mp h
  obtain ⟨props, _, h5, h0, hhd, _, _⟩ := processLine_some_iff.mp hp
  exact ⟨h5, List.ne_nil_of_length_pos h0, hhd⟩

/-- Witness for C3 at a concrete loaded dictionary. -/
theorem C3_loader_length_letter_witness :
    ("яв".toList, "noun".toList) ∈
        get_words ["яв noun\n".toList, "intj x\n".toList] ['я'] ∧
    ("яв".toList : Word).length ≤ 5 ∧ ("яв".toList : Word) ≠ [] ∧
      ("яв".toList : Word).headI ∈ ['я'] :=
  ⟨by decide,
    @C3_loader_length_letter ["яв noun\n".toList, "intj x\n".toList] ['я']
      "яв".toList "noun".toList (by decide)⟩

/-- C6: a source line whose joined annotation string contains a
disqualifying marker (`intj` or `noninfl`) as a substring produces no
entry. -/
theorem C6_disqualifying_marker {ls line : List Char}
    (hbad : bad_types.any (fun b => substrB b (annotationOf line)) = true) :
    processLine ls line = none := by
  cases hres : processLine ls line with
  | none => rfl
  | some e =>
    obtain ⟨w, cl⟩ := e
    obtain ⟨props, hs, _, _, _, hb, _⟩ := processLine_some_iff.mp hres
    rw [annotationOf_eq hs] at hbad
    rw [hbad] at hb
    exact absurd hb (by simp)

/-- Witness for C6 at a concrete interjection line. -/
theorem C6_disqualifying_marker_witness :
    bad_types.any
        (fun b => substrB b (annotationOf "ой intj\n".toList)) = true ∧
      processLine ['о'] "ой intj\n".toList = none :=
  ⟨by decide, C6_disqualifying_marker (by decide)⟩

/-- C7: the checker does not deduplicate `user_words` — a valid word is
appended to `correct` once per occurrence — and on the concrete scenario
`check(['яв', 'яв', 'нема'], noun, {'я'}, [('яв', noun), ('ябеда', noun)])`
it returns `correct = ['яв', 'яв']` and `missed = ['ябеда']`. -/
theorem C7_duplicate_user_words :
    (∀ (uw : List Word) (lp : Word) (ls : List Char)
        (dict : List (Word × Word)) (c m : List Word) (w : Word),
      check_user_words uw lp ls dict = some (c, m) →
      dictGet? (dictOf dict) w = some lp → c.count w = uw.count w) ∧
    check_user_words ["яв".toList, "яв".toList, "нема".toList] "noun".toList
        ['я'] [("яв".toList, "noun".toList), ("ябеда".toList, "noun".toList)]
      = some (["яв".toList, "яв".toList], ["ябеда".toList]) := by
  constructor
  · intro uw lp ls dict c m w h hlp
    obtain ⟨hc, _⟩ := check_user_words_some h
    subst hc
    exact List.count_filter (decide_eq_true hlp)
  · decide

/-- Witness for C7's universally quantified part at a concrete call. -/
theorem C7_duplicate_user_words_witness :
    check_user_words ["яв".toList, "яв".toList] "noun".toList ['я']
        [("яв".toList, "noun".toList)]
      = some (["яв".toList, "яв".toList], []) ∧
    dictGet? (dictOf [("яв".toList, "noun".toList)]) "яв".toList
      = some ("noun".toList) ∧
    (["яв".toList, "яв".toList] : List Word).count "яв".toList
      = (["яв".toList, "яв".toList] : List Word).count "яв".toList :=
  ⟨by decide, by decide,
    C7_duplicate_user_words.1 ["яв".toList, "яв".toList] "noun".toList ['я']
      [("яв".toList, "noun".toList)] ["яв".toList, "яв".toList] []
      "яв".toList (by decide) (by decide)⟩

/-- C9: the `missed` list is disjoint from the entire `user_words` list —
no user-submitted word ever appears in `missed`. -/
theorem C9_missed_disjoint_user_words {uw : List Word} {lp : Word}
    {ls : List Char} {dict : List (Word × Word)} {c m : List Word}
    (h : check_user_words uw lp ls dict = some (c, m)) :
    ∀ w ∈ m, w ∉ uw := by
  obtain ⟨hc, hm⟩ := check_user_words_some h
  intro w hw hwu
  obtain ⟨_, hnc, _, hlp⟩ := moreWords_mem hm w hw
  apply hnc
  subst hc
  exact List.mem_filter.mpr ⟨hwu, decide_eq_true hlp⟩

/-- Witness for C9 at a concrete call with a non-empty `missed` list. -/
theorem C9_missed_disjoint_user_words_witness :
    check_user_words ["нема".toList] "noun".toList ['я']
        [("яв".toList, "noun".toList)]
      = some ([], ["яв".toList]) ∧
    ∀ w ∈ (["яв".toList] : List Word), w ∉ (["нема".toList] : List Word) :=
  ⟨by decide,
    @C9_missed_disjoint_user_words ["нема".toList] "noun".toList ['я']
      [("яв".toList, "noun".toList)] [] ["яв".toList] (by decide)⟩

/-- C2 counterexample: with no duplicates in `user_words`, the union of
`correct` and `missed` can still differ from the set of distinct dictionary
words classified as the target part whose first character is in `letters` —
a user word classified as the target part whose first character is NOT in
`letters` lands in `correct` anyway. -/
theorem C2_counterexample :
    ([['b', 'a']] : List Word).Nodup ∧
    check_user_words [['b', 'a']] "noun".toList ['a']
        [(['b', 'a'], "noun".toList)] = some ([['b', 'a']], []) ∧
    ¬ (∀ w : Word,
        (w ∈ ([['b', 'a']] : List Word) ∨ w ∈ ([] : List Word)) ↔
          (dictGet? (dictOf [(['b', 'a'], "noun".toList)]) w
              = some "noun".toList ∧
            ∃ ch t, w = ch :: t ∧ ch ∈ ['a'])) := by
  refine ⟨by decide, by decide, ?_⟩
  intro hall
  have h := (hall ['b', 'a']).mp (Or.inl (List.mem_cons_self _ _))
  obtain ⟨-, ch, t, heq, hch⟩ := h
  injection heq with h1 h2
  rw [← h1] at hch
  exact absurd hch (by decide)

/-- C2 (amended): when `user_words` has no duplicates and every user word
classified as the target part starts with a letter of `letters`, the union
of `correct` and `missed`, as sets, equals the set of distinct dictionary
words classified (last-write-wins) as the target part whose first character
is in `letters`. -/
theorem C2_completeness_amended {uw : List Word} {lp : Word} {ls : List Char}
    {dict : List (Word × Word)} {c m : List Word}
    (h : check_user_words uw lp ls dict = some (c, m))
    (_hnd : uw.Nodup)
    (hfirst : ∀ w ∈ uw, dictGet? (dictOf dict) w = some lp →
      ∃ ch t, w = ch :: t ∧ ch ∈ ls) :
    ∀ w : Word, (w ∈ c ∨ w ∈ m) ↔
      (dictGet? (dictOf dict) w = some lp ∧
        ∃ ch t, w = ch :: t ∧ ch ∈ ls) := by
  obtain ⟨hc, hm⟩ := check_user_words_some h
  intro w
  constructor
  · rintro (hwc | hwm)
    · have hmemf := List.mem_filter.mp (hc ▸ hwc)
      have hlp := of_decide_eq_true hmemf.2
      exact ⟨hlp, hfirst w hmemf.1 hlp⟩
    · obtain ⟨_, _, hch, hlp⟩ := moreWords_mem hm w hwm
      exact ⟨hlp, hch⟩
  · rintro ⟨hlp, hch⟩
    by_cases hwc : w ∈ c
    · exact Or.inl hwc
    · exact Or.inr (moreWords_complete hm w
        (mem_keysOf_of_dictGet?_eq_some hlp) hwc hch hlp)

/-- Witness for the amended C2 at a concrete call. -/
theorem C2_completeness_amended_witness :
    check_user_words ["яв".toList] "noun".toList ['я']
        [("яв".toList, "noun".toList), ("аз".toList, "noun".toList)]
      = some (["яв".toList], []) ∧
    (["яв".toList] : List Word).Nodup ∧
    (∀ w : Word, (w ∈ (["яв".toList] : List Word) ∨ w ∈ ([] : List Word)) ↔
      (dictGet? (dictOf [("яв".toList, "noun".toList),
          ("аз".toList, "noun".toList)]) w = some "noun".toList ∧
        ∃ ch t, w = ch :: t ∧ ch ∈ ['я'])) :=
  ⟨by decide, by decide,
    @C2_completeness_amended ["яв".toList] "noun".toList ['я']
      [("яв".toList, "noun".toList), ("аз".toList, "noun".toList)]
      ["яв".toList] [] (by decide) (by decide)
      (fun w hw _ => by
        rw [List.mem_singleton.mp hw]
        exact ⟨'я', ['в'], rfl, by decide⟩)⟩

/-- C4: the lookup built by the checker maps each dictionary word to the
classification of its last occurrence in dictionary order, its keys iterate
in first-insertion order (last-write-wins de-duplication of the dictionary
sequence), and the `missed` list follows that iteration order. -/
theorem C4_lookup_last_write_wins (dict : List (Word × Word)) :
    (∀ w : Word, dictGet? (dictOf dict) w = lookupLast dict w) ∧
    keysOf (dictOf dict) = dedupFirst (dict.map Prod.fst) ∧
    ∀ (uw : List Word) (lp : Word) (ls : List Char) (c m : List Word),
      check_user_words uw lp ls dict = some (c, m) →
      m.Sublist (keysOf (dictOf dict)) := by
  refine ⟨fun w => dictGet?_dictOf dict w, keysOf_dictOf dict, ?_⟩
  intro uw lp ls c m h
  obtain ⟨_, hm⟩ := check_user_words_some h
  exact moreWords_sublist hm

/-- Witness for C4 on a dictionary with a duplicated key. -/
theorem C4_lookup_last_write_wins_witness :
    dictGet? (dictOf [("яв".toList, "noun".toList),
        ("аз".toList, "noun".toList), ("яв".toList, "verb".toList)])
        "яв".toList
      = lookupLast [("яв".toList, "noun".toList),
        ("аз".toList, "noun".toList), ("яв".toList, "verb".toList)]
        "яв".toList ∧
    keysOf (dictOf [("яв".toList, "noun".toList),
        ("аз".toList, "noun".toList), ("яв".toList, "verb".toList)])
      = dedupFirst (([("яв".toList, "noun".toList),
        ("аз".toList, "noun".toList),
        ("яв".toList, "verb".toList)]).map Prod.fst) ∧
    (["яв".toList] : List Word).Sublist
      (keysOf (dictOf [("яв".toList, "noun".toList),
        ("аз".toList, "noun".toList), ("яв".toList, "verb".toList)])) :=
  ⟨(C4_lookup_last_write_wins _).1 "яв".toList,
    (C4_lookup_last_write_wins _).2.1,
    (C4_lookup_last_write_wins
        [("яв".toList, "noun".toList), ("аз".toList, "noun".toList),
          ("яв".toList, "verb".toList)]).2.2
      [] "verb".toList ['я'] [] ["яв".toList] (by decide)⟩

/-- C5: the loader classifies an accepted line by testing the joined
annotation string for substring presence of each marker in the fixed
priority order of `language_parts`, the first match mapping to its
category; with no match the raw annotation string is kept verbatim. -/
theorem C5_classification_priority (wp : Word) :
    (classify wp =
      (if substrB "/n".toList wp then "noun".toList
       else if substrB "/v".toList wp then "verb".toList
       else if substrB "noun".toList wp then "noun".toList
       else if substrB "adj".toList wp then "adjective".toList
       else if substrB "adv".toList wp then "adverb".toList
       else if substrB "n".toList wp then "noun".toList
       else if substrB "v".toList wp then "verb".toList
       else wp)) ∧
    ∀ (ls line : List Char) (w cl : Word),
      processLine ls line = some (w, cl) →
      cl = classify (annotationOf line) := by
  constructor
  · have hfind : ∀ (a b : Word) (rest : List (Word × Word)),
        List.find? (fun q => substrB q.1 wp) ((a, b) :: rest)
          = if substrB a wp then some (a, b)
            else List.find? (fun q => substrB q.1 wp) rest := by
      intro a b rest
      cases h : substrB a wp <;> simp [List.find?, h]
    rw [classify, language_parts, hfind, hfind, hfind, hfind, hfind, hfind,
      hfind]
    by_cases h1 : substrB ['/', 'n'] wp = true
    · simp [h1]
    · by_cases h2 : substrB ['/', 'v'] wp = true
      · simp [h1, h2]
      · by_cases h3 : substrB ['n', 'o', 'u', 'n'] wp = true
        · simp [h1, h2, h3]
        · by_cases h4 : substrB ['a', 'd', 'j'] wp = true
          · simp [h1, h2, h3, h4]
          · by_cases h5 : substrB ['a', 'd', 'v'] wp = true
            · simp [h1, h2, h3, h4, h5]
            · by_cases h6 : substrB ['n'] wp = true
              · simp [h1, h2, h3, h4, h5, h6]
              · by_cases h7 : substrB ['v'] wp = true
                · simp [h1, h2, h3, h4, h5, h6, h7]
                · simp [h1, h2, h3, h4, h5, h6, h7, List.find?]
  · intro ls line w cl h
    obtain ⟨props, hs, _, _, _, _, hcl⟩ := processLine_some_iff.mp h
    rw [annotationOf_eq hs]
    exact hcl

/-- Witness for C5 at a concrete adjective line. -/
theorem C5_classification_priority_witness :
    processLine ['я'] "явний adj\n".toList
        = some ("явний".toList, "adjective".toList) ∧
      "adjective".toList = classify (annotationOf "явний adj\n".toList) :=
  ⟨by decide,
    (C5_classification_priority []).2 ['я'] "явний adj\n".toList
      "явний".toList "adjective".toList (by decide)⟩

/-- C8 counterexample: the checker is not total over all dictionaries — a
dictionary containing an empty word makes `check_user_words` with an empty
`user_words` list raise `IndexError` (modelled as `none`) instead of
returning a verdict. -/
theorem C8_counterexample :
    check_user_words [] "noun".toList ['a'] [([], "noun".toList)]
      = none := by decide

/-- C8 (amended): for every target part, letter set, and dictionary whose
words are all non-empty, calling the checker with an empty `user_words`
list succeeds and returns `correct = []` and `missed` equal to the full set
of distinct dictionary words classified as the target part with first
character in `letters`. -/
theorem C8_empty_user_words {lp : Word} {ls : List Char}
    {dict : List (Word × Word)} (hne : ∀ p ∈ dict, p.1 ≠ []) :
    ∃ m, check_user_words [] lp ls dict = some ([], m) ∧
      ∀ w : Word, w ∈ m ↔
        (dictGet? (dictOf dict) w = some lp ∧
          ∃ ch t, w = ch :: t ∧ ch ∈ ls) := by
  have hkeys : ∀ w ∈ keysOf (dictOf dict), w ≠ [] := by
    intro w hw
    rw [keysOf_dictOf] at hw
    obtain ⟨p, hp, hpw⟩ := List.mem_map.mp (mem_of_mem_dedupFirst _ _ hw)
    exact hpw ▸ hne p hp
  obtain ⟨m, hm⟩ :=
    @moreWords_isSome [] ls lp (dictOf dict) (keysOf (dictOf dict)) hkeys
  refine ⟨m, ?_, ?_⟩
  · simp only [check_user_words, List.filter_nil]
    rw [hm]
  · intro w
    constructor
    · intro hw
      obtain ⟨_, _, hch, hlp⟩ := moreWords_mem hm w hw
      exact ⟨hlp, hch⟩
    · rintro ⟨hlp, hch⟩
      exact moreWords_complete hm w (mem_keysOf_of_dictGet?_eq_some hlp)
        (by simp) hch hlp

/-- Witness for the amended C8 at a concrete dictionary. -/
theorem C8_empty_user_words_witness :
    (∀ p ∈ ([("яв".toList, "noun".toList), ("аз".toList, "verb".toList)] :
        List (Word × Word)), p.1 ≠ []) ∧
    ∃ m, check_user_words [] "noun".toList ['я']
        [("яв".toList, "noun".toList), ("аз".toList, "verb".toList)]
      = some ([], m) ∧
      ∀ w : Word, w ∈ m ↔
        (dictGet? (dictOf [("яв".toList, "noun".toList),
            ("аз".toList, "verb".toList)]) w = some "noun".toList ∧
          ∃ ch t, w = ch :: t ∧ ch ∈ ['я']) :=
  ⟨by decide, C8_empty_user_words (by decide)⟩

/-- C10: a line holding only a word that passes the length and first-letter
filter, with no (or only empty) annotation tokens, yields the entry
`(word, "")`; the empty classification equals none of the four
part-of-speech values, so such a word is never correct nor missed. -/
theorem C10_empty_annotation :
    (∀ (ls line : List Char) (word : Word) (props : List (List Char)),
      splitSpace ((rstrip line).map pyLower) = word :: props →
      props.filter (fun t => decide (t ≠ [])) = [] →
      word.length ≤ 5 → 0 < word.length → word.headI ∈ ls →
      processLine ls line = some (word, [])) ∧
    ∀ (uw : List Word) (lp : Word) (ls : List Char)
        (dict : List (Word × Word)) (c m : List Word) (w : Word),
      lp ∈ ["noun".toList, "verb".toList, "adjective".toList,
            "adverb".toList] →
      check_user_words uw lp ls dict = some (c, m) →
      dictGet? (dictOf dict) w = some [] → w ∉ c ∧ w ∉ m := by
  constructor
  · intro ls line word props hs hfilt h5 h0 hhd
    rw [processLine_some_iff]
    refine ⟨props, hs, h5, h0, hhd, ?_, ?_⟩
    · rw [hfilt]
      decide
    · rw [hfilt]
      decide
  · intro uw lp ls dict c m w hlp4 h h0
    obtain ⟨hc, hm⟩ := check_user_words_some h
    have hlpne : ¬ dictGet? (dictOf dict) w = some lp := by
      rw [h0]
      intro hco
      injection hco with hh
      rw [← hh] at hlp4
      exact absurd hlp4 (by decide)
    constructor
    · intro hwc
      rw [hc] at hwc
      exact hlpne (of_decide_eq_true (List.mem_filter.mp hwc).2)
    · intro hwm
      exact hlpne (moreWords_mem hm w hwm).2.2.2

/-- Witness for C10: a bare word line and a checker call against its
empty-classified entry. -/
theorem C10_empty_annotation_witness :
    splitSpace ((rstrip "яв\n".toList).map pyLower) = "яв".toList :: [] ∧
    processLine ['я'] "яв\n".toList = some ("яв".toList, []) ∧
    "noun".toList ∈ (["noun".toList, "verb".toList, "adjective".toList,
      "adverb".toList] : List Word) ∧
    check_user_words ["яв".toList] "noun".toList ['я']
        [("яв".toList, [])] = some ([], []) ∧
    dictGet? (dictOf [("яв".toList, [])]) "яв".toList = some [] ∧
    ("яв".toList ∉ ([] : List Word) ∧ "яв".toList ∉ ([] : List Word)) :=
  ⟨by decide,
    C10_empty_annotation.1 ['я'] "яв\n".toList "яв".toList [] (by decide)
      (by decide) (by decide) (by decide) (by decide),
    by decide, by decide, by decide,
    C10_empty_annotation.2 ["яв".toList] "noun".toList ['я']
      [("яв".toList, [])] [] [] "яв".toList (by decide) (by decide)
      (by decide)⟩
